import Mathlib

set_option maxRecDepth 8192

/-! Verification of the cross-platform path translation and reference
consistency engine of the cmds-eagle plugin.  The engine's functions are
embedded shallowly: JavaScript strings are modelled as lists of unicode
scalar characters (`Str`), percent-decoding follows the ECMA-262 Decode
algorithm used by `decodeURIComponent`, and the concrete regular
expressions of the source are modelled by dedicated matching functions. -/

abbrev Str := List Char

/-- ASCII lower-casing of a character, as applied by the case-insensitive
regex flag to the ASCII patterns appearing in the source. -/
def charLower (c : Char) : Char :=
  if 'A' ≤ c ∧ c ≤ 'Z' then Char.ofNat (c.toNat + 32) else c

/-- Path separator accepted by the Windows patterns, the character class
of slash and backslash. -/
def isSepChar (c : Char) : Bool :=
  c = '/' || c = '\\'

/-- ASCII letter test, the character class of upper and lower case letters
used for the drive letter in the Windows patterns. -/
def isAsciiLetter (c : Char) : Bool :=
  ('A' ≤ c && c ≤ 'Z') || ('a' ≤ c && c ≤ 'z')

/-- Boolean test that `needle` occurs at the very start of `hay`,
modelling `String.prototype.startsWith`. -/
def startsWithStr : Str → Str → Bool
  | [], _ => true
  | _ :: _, [] => false
  | a :: as, b :: bs => a = b && startsWithStr as bs

/-- Boolean test that `needle` occurs somewhere inside `hay`, modelling
`String.prototype.includes`. -/
def containsStr (needle : Str) : Str → Bool
  | [] => startsWithStr needle []
  | c :: t => startsWithStr needle (c :: t) || containsStr needle t

/-- Remove the first (leftmost) occurrence of `needle`, modelling
`String.prototype.replace(needle, Empty)` with a plain string pattern;
when the needle does not occur the string is returned unchanged. -/
def replaceFirstStr (needle : Str) : Str → Str
  | [] => []
  | c :: t =>
    if startsWithStr needle (c :: t) then (c :: t).drop needle.length
    else c :: replaceFirstStr needle t

/-- Replace every backslash by a forward slash, modelling the global
regex replace of backslashes in the source. -/
def slashify (s : Str) : Str :=
  s.map (fun c => if c = '\\' then '/' else c)

/-- Split a string at every occurrence of the separator character,
modelling `String.prototype.split`; the result is never empty. -/
def splitOnChar (sep : Char) : Str → List Str
  | [] => [[]]
  | c :: t =>
    match splitOnChar sep t with
    | [] => [[]]
    | p :: ps => if c = sep then [] :: p :: ps else (c :: p) :: ps

/-- Join a list of strings with the separator character between the
pieces, modelling `Array.prototype.join`. -/
def joinSep (sep : Char) : List Str → Str
  | [] => []
  | [x] => x
  | x :: y :: t => x ++ sep :: joinSep sep (y :: t)

/-- Value of one hexadecimal digit character, accepting both cases as the
escape-sequence parser of the URI decoder does. -/
def hexVal (c : Char) : Option Nat :=
  if '0' ≤ c ∧ c ≤ '9' then some (c.toNat - '0'.toNat)
  else if 'a' ≤ c ∧ c ≤ 'f' then some (c.toNat - 'a'.toNat + 10)
  else if 'A' ≤ c ∧ c ≤ 'F' then some (c.toNat - 'A'.toNat + 10)
  else none

/-- Upper-case hexadecimal digit for a value below sixteen, as emitted by
`encodeURIComponent`. -/
def hexDigit (n : Nat) : Char :=
  if n < 10 then Char.ofNat ('0'.toNat + n) else Char.ofNat ('A'.toNat + n - 10)

/-- Percent escape of one byte. -/
def byteEscape (b : Nat) : Str :=
  ['%', hexDigit (b / 16), hexDigit (b % 16)]

/-- UTF-8 encoding of one unicode scalar value as a list of bytes. -/
def utf8EncodeNat (v : Nat) : List Nat :=
  if v < 0x80 then [v]
  else if v < 0x800 then [0xC0 + v / 64, 0x80 + v % 64]
  else if v < 0x10000 then
    [0xE0 + v / 4096, 0x80 + (v / 64) % 64, 0x80 + v % 64]
  else
    [0xF0 + v / 262144, 0x80 + (v / 4096) % 64, 0x80 + (v / 64) % 64, 0x80 + v % 64]

/-- Characters left unescaped by `encodeURIComponent`, the unreserved set
of ECMA-262: ASCII letters, digits and the marks. -/
def isUriUnreserved (c : Char) : Bool :=
  c.isAlphanum || c = '-' || c = '_' || c = '.' || c = '!' || c = '~' ||
    c = '*' || c = '\'' || c = '(' || c = ')'

/-- Model of `encodeURIComponent`: unreserved characters pass through, any
other character is written as the percent escapes of its UTF-8 bytes. -/
def encodeURIComponentChars (s : Str) : Str :=
  s.flatMap fun c =>
    if isUriUnreserved c then [c]
    else (utf8EncodeNat c.toNat).flatMap byteEscape

/-- Read one percent escape at the head of the string, returning the byte
it denotes and the remaining characters; `none` when the head is not a
percent sign followed by two hex digits. -/
def parseEscape : Str → Option (Nat × Str)
  | '%' :: h1 :: h2 :: r =>
    match hexVal h1, hexVal h2 with
    | some a, some b => some (16 * a + b, r)
    | _, _ => none
  | _ => none

/-- Read `n` percent escapes of UTF-8 continuation bytes at the head of
the string. -/
def parseContEscapes : Nat → Str → Option (List Nat × Str)
  | 0, s => some ([], s)
  | n + 1, s =>
    match parseEscape s with
    | some (b, r) =>
      if 0x80 ≤ b ∧ b < 0xC0 then
        match parseContEscapes n r with
        | some (bs, r2) => some (b :: bs, r2)
        | none => none
      else none
    | none => none

/-- Number of continuation bytes demanded by a UTF-8 lead byte; `none` for
a stray continuation byte or an invalid lead byte. -/
def utf8SeqLen (b : Nat) : Option Nat :=
  if b < 0x80 then some 0
  else if b < 0xC0 then none
  else if b < 0xE0 then some 1
  else if b < 0xF0 then some 2
  else if b < 0xF8 then some 3
  else none

/-- Combine a UTF-8 lead byte and its continuation bytes into a unicode
scalar value, rejecting overlong encodings, surrogates and values past the
unicode range as the ECMA-262 Decode algorithm does. -/
def utf8Assemble (b : Nat) (bs : List Nat) : Option Nat :=
  match bs with
  | [] => if b < 0x80 then some b else none
  | [b2] =>
    if 0x80 ≤ (b - 0xC0) * 64 + (b2 - 0x80) then
      some ((b - 0xC0) * 64 + (b2 - 0x80))
    else none
  | [b2, b3] =>
    if 0x800 ≤ (b - 0xE0) * 4096 + (b2 - 0x80) * 64 + (b3 - 0x80) ∧
        ((b - 0xE0) * 4096 + (b2 - 0x80) * 64 + (b3 - 0x80) < 0xD800 ∨
          0xDFFF < (b - 0xE0) * 4096 + (b2 - 0x80) * 64 + (b3 - 0x80)) then
      some ((b - 0xE0) * 4096 + (b2 - 0x80) * 64 + (b3 - 0x80))
    else none
  | [b2, b3, b4] =>
    if 0x10000 ≤ (b - 0xF0) * 262144 + (b2 - 0x80) * 4096 + (b3 - 0x80) * 64 + (b4 - 0x80) ∧
        (b - 0xF0) * 262144 + (b2 - 0x80) * 4096 + (b3 - 0x80) * 64 + (b4 - 0x80) < 0x110000 then
      some ((b - 0xF0) * 262144 + (b2 - 0x80) * 4096 + (b3 - 0x80) * 64 + (b4 - 0x80))
    else none
  | _ => none

theorem parseEscape_length {s : Str} {b : Nat} {r : Str}
    (h : parseEscape s = some (b, r)) : r.length + 3 = s.length := by
  unfold parseEscape at h
  split at h
  · split at h
    · simp at h
      obtain ⟨h1, h2⟩ := h
      subst h2
      simp
    · simp at h
  · simp at h

theorem parseContEscapes_length :
    ∀ {n : Nat} {s : Str} {bs : List Nat} {r : Str},
      parseContEscapes n s = some (bs, r) → r.length + 3 * n = s.length := by
  intro n
  induction n with
  | zero => intro s bs r h; simp [parseContEscapes] at h; simp [h.2]
  | succ m ih =>
    intro s bs r h
    unfold parseContEscapes at h
    revert h
    match he : parseEscape s with
    | none => intro h; simp at h
    | some (b, r1) =>
      intro h
      by_cases hb : 0x80 ≤ b ∧ b < 0xC0
      · simp [hb] at h
        revert h
        match hc : parseContEscapes m r1 with
        | none => intro h; simp at h
        | some (bs2, r2) =>
          intro h
          simp at h
          obtain ⟨h1, h2⟩ := h
          have e1 := parseEscape_length he
          have e2 := ih hc
          subst h2
          omega
      · simp [hb] at h

/-- Fuel-indexed body of the `decodeURIComponent` model; the fuel only
bounds the recursion depth and one unit per consumed character always
suffices (`decodeURIFuel_mono`). -/
def decodeURIFuel : Nat → Str → Option Str
  | 0, _ => none
  | fuel + 1, s =>
    match s with
    | [] => some []
    | c :: t =>
      if c = '%' then
        match parseEscape (c :: t) with
        | none => none
        | some (b, r1) =>
          match utf8SeqLen b with
          | none => none
          | some n =>
            match parseContEscapes n r1 with
            | none => none
            | some (bs, r2) =>
              match utf8Assemble b bs with
              | none => none
              | some v => Option.map (fun u => Char.ofNat v :: u) (decodeURIFuel fuel r2)
      else
        Option.map (fun u => c :: u) (decodeURIFuel fuel t)

/-- Model of `decodeURIComponent`, the ECMA-262 Decode algorithm: percent
escapes are read as UTF-8 byte sequences and reassembled into characters;
`none` models a thrown `URIError` (missing or non-hex digits, a stray
continuation byte, an overlong or out-of-range sequence). -/
def decodeURIChars (s : Str) : Option Str :=
  decodeURIFuel (s.length + 1) s

theorem decodeURIFuel_mono :
    ∀ (n m : Nat) (s : Str), s.length < n → s.length < m →
      decodeURIFuel n s = decodeURIFuel m s := by
  intro n
  induction n with
  | zero => intro m s hn; omega
  | succ n2 ih =>
    intro m s hn hm
    match m, hm with
    | m2 + 1, hm =>
    cases s with
    | nil => rfl
    | cons c t =>
      rw [decodeURIFuel, decodeURIFuel]
      by_cases hc : c = '%'
      · rw [if_pos hc, if_pos hc]
        cases hpe : parseEscape (c :: t) with
        | none => rfl
        | some p =>
          obtain ⟨b, r1⟩ := p
          dsimp only
          cases utf8SeqLen b with
          | none => rfl
          | some k =>
            dsimp only
            cases hce : parseContEscapes k r1 with
            | none => rfl
            | some q =>
              obtain ⟨bs, r2⟩ := q
              dsimp only
              cases utf8Assemble b bs with
              | none => rfl
              | some v =>
                dsimp only
                have e1 := parseEscape_length hpe
                have e2 := parseContEscapes_length hce
                simp only [List.length_cons] at e1 hn hm
                have h2 : r2.length < n2 := by omega
                have h3 : r2.length < m2 := by omega
                rw [ih m2 r2 h2 h3]
      · rw [if_neg hc, if_neg hc]
        simp only [List.length_cons] at hn hm
        rw [ih m2 t (by omega) (by omega)]

theorem decodeURIChars_cons_ne {c : Char} (t : Str) (hc : ¬ c = '%') :
    decodeURIChars (c :: t) = Option.map (fun u => c :: u) (decodeURIChars t) := by
  show decodeURIFuel ((c :: t).length + 1) (c :: t) = _
  rw [decodeURIFuel, if_neg hc]
  rw [decodeURIFuel_mono (c :: t).length (t.length + 1) t (by simp) (by omega)]
  rfl

theorem decodeURIChars_percent (t : Str) :
    decodeURIChars ('%' :: t) =
      match parseEscape ('%' :: t) with
      | none => none
      | some (b, r1) =>
        match utf8SeqLen b with
        | none => none
        | some n =>
          match parseContEscapes n r1 with
          | none => none
          | some (bs, r2) =>
            match utf8Assemble b bs with
            | none => none
            | some v => Option.map (fun u => Char.ofNat v :: u) (decodeURIChars r2) := by
  show decodeURIFuel (('%' :: t).length + 1) ('%' :: t) = _
  rw [decodeURIFuel, if_pos rfl]
  cases hpe : parseEscape ('%' :: t) with
  | none => rfl
  | some p =>
    obtain ⟨b, r1⟩ := p
    dsimp only
    cases utf8SeqLen b with
    | none => rfl
    | some k =>
      dsimp only
      cases hce : parseContEscapes k r1 with
      | none => rfl
      | some q =>
        obtain ⟨bs, r2⟩ := q
        dsimp only
        cases utf8Assemble b bs with
        | none => rfl
        | some v =>
          dsimp only
          have e1 := parseEscape_length hpe
          have e2 := parseContEscapes_length hce
          simp only [List.length_cons] at e1
          rw [decodeURIFuel_mono (('%' :: t).length) (r2.length + 1) r2
            (by simp; omega) (by omega)]
          rfl

theorem decodeURIFuel_length_le :
    ∀ (n : Nat) (s r : Str), decodeURIFuel n s = some r → r.length ≤ s.length := by
  intro n
  induction n with
  | zero => intro s r hr; simp [decodeURIFuel] at hr
  | succ m ih =>
    intro s r hr
    rw [decodeURIFuel.eq_def] at hr
    dsimp only at hr
    split at hr
    · simp at hr; simp [← hr]
    · rename_i c t
      split at hr
      · split at hr
        · simp at hr
        · rename_i b r1 hpe
          split at hr
          · simp at hr
          · rename_i n2 hsl
            split at hr
            · simp at hr
            · rename_i bs r2 hce
              split at hr
              · simp at hr
              · rename_i v hva
                simp at hr
                obtain ⟨u, hu, hru⟩ := hr
                have e1 := parseEscape_length hpe
                have e2 := parseContEscapes_length hce
                simp at e1
                have := ih r2 u hu
                simp [← hru]
                omega
      · simp at hr
        obtain ⟨u, hu, hru⟩ := hr
        have := ih t u hu
        simp [← hru]
        omega

theorem decodeURIChars_length_le {s r : Str} (h : decodeURIChars s = some r) :
    r.length ≤ s.length :=
  decodeURIFuel_length_le (s.length + 1) s r h

theorem decodeURIFuel_length_lt :
    ∀ (n : Nat) (s r : Str), '%' ∈ s → decodeURIFuel n s = some r →
      r.length < s.length := by
  intro n
  induction n with
  | zero => intro s r hm hr; simp [decodeURIFuel] at hr
  | succ m ih =>
    intro s r hm hr
    rw [decodeURIFuel.eq_def] at hr
    dsimp only at hr
    split at hr
    · cases hm
    · rename_i c t
      split at hr
      · rename_i hc
        split at hr
        · simp at hr
        · rename_i b r1 hpe
          split at hr
          · simp at hr
          · rename_i n2 hsl
            split at hr
            · simp at hr
            · rename_i bs r2 hce
              split at hr
              · simp at hr
              · rename_i v hva
                simp at hr
                obtain ⟨u, hu, hru⟩ := hr
                have e1 := parseEscape_length hpe
                have e2 := parseContEscapes_length hce
                simp at e1
                have := decodeURIFuel_length_le m r2 u hu
                simp [← hru]
                omega
      · rename_i hc
        simp at hr
        obtain ⟨u, hu, hru⟩ := hr
        have hmt : '%' ∈ t := by
          rcases List.mem_cons.mp hm with h1 | h2
          · exact absurd h1.symm hc
          · exact h2
        have := ih t u hmt hu
        simp [← hru]
        omega

theorem decodeURIChars_length_lt {s r : Str} (hmem : '%' ∈ s)
    (h : decodeURIChars s = some r) : r.length < s.length :=
  decodeURIFuel_length_lt (s.length + 1) s r hmem h

theorem containsStr_singleton (c : Char) :
    ∀ s : Str, containsStr [c] s = true ↔ c ∈ s := by
  intro s
  induction s with
  | nil => simp [containsStr, startsWithStr]
  | cons a t ih =>
    constructor
    · intro h
      simp only [containsStr, startsWithStr, Bool.or_eq_true, Bool.and_eq_true,
        decide_eq_true_eq] at h
      rcases h with ⟨h1, _⟩ | h2
      · exact h1 ▸ List.mem_cons_self a t
      · exact List.mem_cons_of_mem a (ih.mp h2)
    · intro h
      rcases List.mem_cons.mp h with h1 | h2
      · simp [containsStr, startsWithStr, h1]
      · simp [containsStr, ih.mpr h2]

/-- Fuel-indexed loop of `fullyDecodeUri`; one unit of fuel per character
of the argument always suffices because a successful decode pass on a
string still containing a percent sign strictly shortens it. -/
def fullyDecodeGoFuel : Nat → Str → Option Str
  | 0, _ => none
  | fuel + 1, s =>
    if containsStr ['%'] s then
      match decodeURIChars s with
      | none => none
      | some next => if next = s then some s else fullyDecodeGoFuel fuel next
    else some s

/-- Loop of `fullyDecodeUri` (and of the identical loop opening
`pathToFileUrl`): repeatedly percent-decode until a fixed point is
reached; `none` models the `URIError` escaping to the catch block. -/
def fullyDecodeGo (s : Str) : Option Str :=
  fullyDecodeGoFuel (s.length + 1) s

theorem fullyDecodeGoFuel_mono :
    ∀ (n m : Nat) (s : Str), s.length < n → s.length < m →
      fullyDecodeGoFuel n s = fullyDecodeGoFuel m s := by
  intro n
  induction n with
  | zero => intro m s hn; omega
  | succ n2 ih =>
    intro m s hn hm
    match m, hm with
    | m2 + 1, hm =>
    rw [fullyDecodeGoFuel, fullyDecodeGoFuel]
    by_cases hin : containsStr ['%'] s
    · rw [if_pos hin, if_pos hin]
      cases hd : decodeURIChars s with
      | none => rfl
      | some next =>
        dsimp only
        by_cases hfix : next = s
        · rw [if_pos hfix, if_pos hfix]
        · rw [if_neg hfix, if_neg hfix]
          have hlt := decodeURIChars_length_lt ((containsStr_singleton '%' s).mp hin) hd
          exact ih m2 next (by omega) (by omega)
    · rw [if_neg hin, if_neg hin]

theorem fullyDecodeGo_step (s : Str) :
    fullyDecodeGo s =
      if containsStr ['%'] s then
        match decodeURIChars s with
        | none => none
        | some next => if next = s then some s else fullyDecodeGo next
      else some s := by
  show fullyDecodeGoFuel (s.length + 1) s = _
  rw [fullyDecodeGoFuel]
  by_cases hin : containsStr ['%'] s
  · rw [if_pos hin, if_pos hin]
    cases hd : decodeURIChars s with
    | none => rfl
    | some next =>
      dsimp only
      by_cases hfix : next = s
      · rw [if_pos hfix, if_pos hfix]
      · rw [if_neg hfix, if_neg hfix]
        have hlt := decodeURIChars_length_lt ((containsStr_singleton '%' s).mp hin) hd
        exact fullyDecodeGoFuel_mono s.length (next.length + 1) next (by omega) (by omega)
  · rw [if_neg hin, if_neg hin]

/-- Model of the source's `fullyDecodeUri`: run the decode loop and, when
the loop throws, return the original argument (the catch block's
`return str`). -/
def fullyDecodeUri (s : Str) : Str :=
  (fullyDecodeGo s).getD s

/-- Platform tag of a computer profile, the `PlatformType` of the source
(`process.platform` values). -/
inductive PlatformType where
  | darwin
  | win32
  deriving DecidableEq, Repr

/-- One registered machine identity, the `ComputerProfile` record of the
source settings.  The optional `subPath` field is modelled as a string
with the empty string for absent, matching the `|| ''` coercions of the
source. -/
structure ComputerProfile where
  id : Str
  name : Str
  platform : PlatformType
  username : Str
  subPath : Str
  eagleLibraryPath : Str
  isCurrentComputer : Bool
  deriving DecidableEq, Repr

/-- Ambient state of the engine: the persisted settings consulted by the
translation functions, plus the process platform (`process.platform`) and
the vault location (`adapter.basePath`) from which the live username is
re-derived. -/
structure EagleEnv where
  enableCrossPlatform : Bool
  computers : List ComputerProfile
  currentPlatform : PlatformType
  vaultPath : Str
  deriving DecidableEq, Repr

/-- Consume one path separator (slash or backslash), the `[/\\]` class of
the Windows patterns. -/
def matchSepCharM : Str → Option Str
  | c :: r => if isSepChar c then some r else none
  | [] => none

/-- Match a literal pattern case-insensitively at the head of the string,
returning the remainder; models a literal run inside a regex with the
`i` flag. -/
def matchLitCi : Str → Str → Option Str
  | [], s => some s
  | _ :: _, [] => none
  | p :: ps, a :: rest =>
    if charLower p = charLower a then matchLitCi ps rest else none

/-- Model of the source's `getCurrentUsername`: re-derive the live account
name by pattern-matching the vault path against the home-directory shapes
of the current platform, returning the empty string when no match. -/
def getCurrentUsername (env : EagleEnv) : Str :=
  match env.currentPlatform with
  | PlatformType.darwin =>
    if startsWithStr "/Users/".data env.vaultPath then
      let u := (env.vaultPath.drop 7).takeWhile (fun c => ¬ c = '/')
      if u = [] then [] else u
    else []
  | PlatformType.win32 =>
    match env.vaultPath with
    | d :: c2 :: rest =>
      if isAsciiLetter d ∧ c2 = ':' then
        match matchSepCharM rest with
        | none => []
        | some r1 =>
          match matchLitCi "Users".data r1 with
          | none => []
          | some r2 =>
            match matchSepCharM r2 with
            | none => []
            | some r3 =>
              let u := r3.takeWhile (fun c => ¬ isSepChar c)
              if u = [] then [] else u
      else []
    | _ => []

/-- Match the sub-path portion of the Windows root regex: the source
splices the profile's `subPath` into the pattern with every separator
replaced by the `[/\\]` class, other characters matched case-insensitively
under the `i` flag. -/
def matchSubPathCi : Str → Str → Option Str
  | [], s => some s
  | p :: ps, s =>
    if isSepChar p then
      match matchSepCharM s with
      | some r => matchSubPathCi ps r
      | none => none
    else
      match s with
      | [] => none
      | a :: rest =>
        if charLower p = charLower a then matchSubPathCi ps rest else none

/-- Match, at the head of the string, the Windows root pattern
`[A-Za-z]:[/\\]Users[/\\]<user>(<subPath part>)[/\\]` used by the source
(with the case-insensitive flag), returning the remainder after the
match. -/
def matchWinRootAt (user subPath s : Str) : Option Str :=
  match s with
  | d :: c2 :: rest =>
    if isAsciiLetter d ∧ c2 = ':' then
      match matchSepCharM rest with
      | none => none
      | some r1 =>
        match matchLitCi "Users".data r1 with
        | none => none
        | some r2 =>
          match matchSepCharM r2 with
          | none => none
          | some r3 =>
            match matchLitCi user r3 with
            | none => none
            | some r4 =>
              match
                (if subPath = [] then some r4
                 else
                   match matchSepCharM r4 with
                   | none => none
                   | some ra => matchSubPathCi subPath ra) with
              | none => none
              | some r5 => matchSepCharM r5
    else none
  | _ => none

/-- Unanchored test of the Windows root pattern (used where the source
regex carries no `^` anchor): does the pattern match at some position? -/
def winTestAnywhere (user subPath : Str) : Str → Bool
  | [] => false
  | c :: t =>
    (matchWinRootAt user subPath (c :: t)).isSome || winTestAnywhere user subPath t

/-- Remove the first (leftmost) match of the unanchored Windows root
pattern, modelling `path.replace(winPattern, Empty)`; the string is
returned unchanged when the pattern does not match. -/
def replaceWinRootOnce (user subPath : Str) : Str → Str
  | [] => []
  | c :: t =>
    match matchWinRootAt user subPath (c :: t) with
    | some rem => rem
    | none => c :: replaceWinRootOnce user subPath t

/-- The literal macOS root pattern `/Users/<username>/` that the source
builds for `includes` tests and prefix stripping. -/
def macRootPat (username : Str) : Str :=
  "/Users/".data ++ username ++ ['/']

/-- Model of the source's `findMatchingComputer`: walk the registered
profiles in order and return the first whose platform-specific pattern
matches the path (macOS by substring containment, Windows by the anchored
drive-letter regex). -/
def findMatchingComputer (env : EagleEnv) (path : Str) : Option ComputerProfile :=
  if env.enableCrossPlatform = false ∨ env.computers = [] then none
  else
    env.computers.find? fun computer =>
      match computer.platform with
      | PlatformType.darwin => containsStr (macRootPat computer.username) path
      | PlatformType.win32 => (matchWinRootAt computer.username [] path).isSome

/-- Model of the source's `isPathFromDifferentPlatform`: any registered
profile other than the live one matches the path (macOS by containment,
Windows by the unanchored regex). -/
def isPathFromDifferentPlatform (env : EagleEnv) (path : Str) : Bool :=
  env.computers.any fun computer =>
    if computer.platform = env.currentPlatform ∧
        computer.username = getCurrentUsername env then
      false
    else
      match computer.platform with
      | PlatformType.darwin => containsStr (macRootPat computer.username) path
      | PlatformType.win32 => winTestAnywhere computer.username [] path

/-- The macOS root prefix the translator builds from a profile,
`/Users/<user>/<subPath>/` or `/Users/<user>/` when the sub-path is
empty. -/
def macSourceRoot (username subPath : Str) : Str :=
  if subPath ≠ [] then "/Users/".data ++ username ++ ['/'] ++ subPath ++ ['/']
  else "/Users/".data ++ username ++ ['/']

/-- The Windows target root the translator builds, anchored to drive `C:`
by the source. -/
def winTargetRoot (username subPath : Str) : Str :=
  if subPath ≠ [] then "C:/Users/".data ++ username ++ ['/'] ++ subPath ++ ['/']
  else "C:/Users/".data ++ username ++ ['/']

/-- Model of the source's `convertPathForCurrentPlatform`: classify the
path to its source profile, look up the live profile, strip the source
root prefix and re-anchor the remainder at the live profile's root. -/
def convertPathForCurrentPlatform (env : EagleEnv) (path : Str) : Str :=
  if env.enableCrossPlatform = false ∨ env.computers = [] then path
  else
    match findMatchingComputer env path with
    | none => path
    | some sourceComputer =>
      match
        env.computers.find? fun c =>
          c.platform = env.currentPlatform ∧ c.username = getCurrentUsername env with
      | none => path
      | some currentComputer =>
        if sourceComputer.id = currentComputer.id then path
        else
          let relativePath :=
            if sourceComputer.platform = PlatformType.darwin then
              replaceFirstStr
                (macSourceRoot sourceComputer.username sourceComputer.subPath) path
            else
              slashify
                (replaceWinRootOnce sourceComputer.username sourceComputer.subPath path)
          if currentComputer.platform = PlatformType.darwin then
            macSourceRoot currentComputer.username currentComputer.subPath ++ relativePath
          else
            winTargetRoot currentComputer.username currentComputer.subPath ++ relativePath

/-- Per-segment percent encoding of a path: split at slashes, encode each
segment with `encodeURIComponent`, rejoin with slashes. -/
def encodeSegs (s : Str) : Str :=
  joinSep '/' ((splitOnChar '/' s).map encodeURIComponentChars)

/-- The `^[A-Za-z]:` test for a drive-letter absolute path. -/
def driveLetterTest (s : Str) : Bool :=
  match s with
  | d :: c2 :: _ => isAsciiLetter d && c2 = ':'
  | _ => false

/-- The anchored fix-up `^([A-Za-z])%3A` -> `$1:` restoring a percent
encoded drive-letter colon. -/
def colonFix (s : Str) : Str :=
  match s with
  | d :: '%' :: '3' :: 'A' :: t => if isAsciiLetter d then d :: ':' :: t else s
  | _ => s

/-- Model of the source's `pathToFileUrl`: fully percent-decode, run the
cross-platform conversion, normalize backslashes, re-encode per segment,
and build the `file://` form (triple slash with the colon restored for a
drive-letter path on Windows). -/
def pathToFileUrl (env : EagleEnv) (path : Str) : Str :=
  let decodedPath := fullyDecodeUri path
  let convertedPath := convertPathForCurrentPlatform env decodedPath
  let normalizedPath := slashify convertedPath
  let encodedPath := encodeSegs normalizedPath
  if env.currentPlatform = PlatformType.win32 ∧ driveLetterTest normalizedPath then
    "file:///".data ++ colonFix encodedPath
  else
    "file://".data ++ encodedPath

/-- The scheme strip `url.replace(/^file:\/\/\/?/, Empty)`: drop
`file://` plus at most one further slash. -/
def stripFileScheme (s : Str) : Str :=
  if startsWithStr "file:///".data s then s.drop 8
  else if startsWithStr "file://".data s then s.drop 7
  else s

/-- The malformed-producer fix-up of the scan passes: a scheme-stripped
path beginning `Users/` without a leading slash gets one prepended. -/
def usersSlashFix (p : Str) : Str :=
  if startsWithStr "Users/".data p ∧ ¬ startsWithStr "/".data p then '/' :: p
  else p

/-- Path extraction applied by the scan passes to a `file://` location:
strip the scheme, fully percent-decode, apply the `Users/` fix-up. -/
def extractFileUrlPath (url : Str) : Str :=
  usersSlashFix (fullyDecodeUri (stripFileScheme url))

/-- One regex hit of the content-mode scan (`convertCrossPlatformPaths`):
extract the embedded path from the `file://` URL and, when the
different-platform guard fires, replace the URL by the converted one; the
boolean reports whether the hit was counted as a conversion. -/
def contentStep (env : EagleEnv) (originalUrl : Str) : Str × Bool :=
  let filePath := extractFileUrlPath originalUrl
  if isPathFromDifferentPlatform env filePath then
    (pathToFileUrl env (convertPathForCurrentPlatform env filePath), true)
  else
    (originalUrl, false)

/-- Rendered image node as the render-mode pass sees it: its `src`
attribute, the idempotence marker attribute `data-xplatform-converted`,
and the stored `data-original-src`. -/
structure ImgNode where
  src : Option Str
  xplatformConverted : Bool
  dataOriginalSrc : Option Str
  deriving DecidableEq, Repr

/-- The `^app:\/\/[^/]+\/(.+)$` extraction of the render pass. -/
def appUrlExtract (s : Str) : Option Str :=
  if startsWithStr "app://".data s then
    let rest := s.drop 6
    let host := rest.takeWhile (fun c => ¬ c = '/')
    if host = [] then none
    else
      match rest.drop host.length with
      | '/' :: tail => if tail = [] then none else some tail
      | _ => none
  else none

/-- Model of the source's `convertImageSrcForRendering`: skip nodes
without a `src` or already carrying the converted marker, extract the
embedded path, and when the different-platform guard fires and conversion
changes the path, rewrite `src` and tag the node. -/
def convertImageSrcForRendering (env : EagleEnv) (img : ImgNode) : ImgNode :=
  match img.src with
  | none => img
  | some src =>
    if img.xplatformConverted then img
    else
      let extractedPath : Option Str :=
        if startsWithStr "app://".data src then
          (appUrlExtract src).map fullyDecodeUri
        else if startsWithStr "file://".data src then
          some (fullyDecodeUri (stripFileScheme src))
        else none
      match extractedPath with
      | none => img
      | some p0 =>
        if p0 = [] then img
        else
          let extracted := usersSlashFix p0
          if isPathFromDifferentPlatform env extracted = false then img
          else
            let convertedPath := convertPathForCurrentPlatform env extracted
            if convertedPath ≠ extracted then
              { src := some (pathToFileUrl env convertedPath),
                xplatformConverted := true,
                dataOriginalSrc := some src }
            else img

/-- One reference hit inside a document: start line, start column and the
exact matched embed text, as collected by `findAllReferencesToFile`. -/
structure RefPos where
  line : Nat
  ch : Nat
  text : Str
  deriving DecidableEq, Repr

/-- The hits of one document, keyed by its path. -/
structure NoteRefs where
  notePath : Str
  positions : List RefPos
  deriving DecidableEq, Repr

/-- The document store: path and content pairs, standing for the vault. -/
abbrev Vault := List (Str × Str)

/-- Look up a document's content, modelling
`vault.getAbstractFileByPath` followed by `vault.read`; `none` stands for
the `continue` taken when the path resolves to no file. -/
def vaultRead (vault : Vault) (path : Str) : Option Str :=
  (vault.find? fun e => e.1 = path).map fun e => e.2

/-- Write a document's content back, modelling `vault.modify`. -/
def vaultWrite (vault : Vault) (path content : Str) : Vault :=
  vault.map fun e => if e.1 = path then (e.1, content) else e

/-- Strict descending comparison on hit positions: later line first, then
later column, the order induced by the comparator
`(a, b) => b.line - a.line` then `b.ch - a.ch` of the source. -/
def posKeyGt (a b : RefPos) : Bool :=
  b.line < a.line || (a.line = b.line && b.ch < a.ch)

/-- Insert a hit into a descending-sorted list, after any hit comparing
equal, preserving the stability of the JavaScript sort. -/
def insertPosDesc (x : RefPos) : List RefPos → List RefPos
  | [] => [x]
  | y :: t => if posKeyGt x y then x :: y :: t else y :: insertPosDesc x t

/-- Stable sort of hit positions into last-to-first order, the effect of
`[...ref.positions].sort(comparator)` in the source. -/
def sortPositionsDesc (ps : List RefPos) : List RefPos :=
  ps.foldl (fun acc x => insertPosDesc x acc) []

def indexOfFromAux (needle : Str) : Str → Nat → Option Nat
  | [], i => if startsWithStr needle [] then some i else none
  | c :: t, i =>
    if startsWithStr needle (c :: t) then some i
    else indexOfFromAux needle t (i + 1)

/-- Model of `String.prototype.indexOf(needle, start)`; `none` stands for
the `-1` result. -/
def indexOfFrom (needle hay : Str) (start : Nat) : Option Nat :=
  indexOfFromAux needle (hay.drop start) (min start hay.length)

/-- The replacement embed text built by the rewriter for each hit. -/
def embedMarkdown (basename url : Str) : Str :=
  "![".data ++ basename ++ "](".data ++ url ++ ")".data

/-- One hit rewrite of `replaceAllReferences`: split the content into
lines, find the hit's raw text on its recorded line at or after its
recorded column, splice the new embed text in, and rejoin.  A missing or
empty line (the falsy `if (line)` guard) or an unfound text leaves the
content untouched. -/
def applyReplaceOne (basename newUrl : Str) (content : Str) (pos : RefPos) : Str :=
  let lines := splitOnChar '\n' content
  match lines[pos.line]? with
  | none => content
  | some line =>
    if line = [] then content
    else
      match indexOfFrom pos.text line pos.ch with
      | none => content
      | some idx =>
        joinSep '\n'
          (lines.set pos.line
            (line.take idx ++ embedMarkdown basename newUrl ++
              line.drop (idx + pos.text.length)))

/-- Model of the source's `replaceAllReferences`: for each document in
turn, read it, rewrite its hits from last position to first, and persist
it once; the returned list logs the persisted document paths in order. -/
def replaceAllReferences (refs : List NoteRefs) (basename newUrl : Str)
    (vault : Vault) : Vault × List Str :=
  match refs with
  | [] => (vault, [])
  | ref :: rest =>
    match vaultRead vault ref.notePath with
    | none => replaceAllReferences rest basename newUrl vault
    | some content =>
      let newContent :=
        (sortPositionsDesc ref.positions).foldl
          (applyReplaceOne basename newUrl) content
      let result :=
        replaceAllReferences rest basename newUrl
          (vaultWrite vault ref.notePath newContent)
      (result.1, ref.notePath :: result.2)

/-- The hit filter of `offerToReplaceOtherReferences`: drop the hit at the
excluded position when the document is the active one, then drop documents
left without hits. -/
def filterRefs (refs : List NoteRefs) (activeFile : Option Str)
    (excl : Nat × Nat) : List NoteRefs :=
  (refs.map fun r =>
    NoteRefs.mk r.notePath
      (r.positions.filter fun p =>
        match activeFile with
        | some ap =>
          if r.notePath = ap then !(p.line == excl.1 && p.ch == excl.2) else true
        | none => true)).filter
    fun r => !r.positions.isEmpty

/-- Model of the source's `offerToReplaceOtherReferences`: filter out the
already-handled hit, return with no writes when nothing remains, ask for
confirmation (the resolved outcome of the clickable notice with its
bounded wait is the `confirmed` argument; a decline and the timeout both
resolve it to `false`), and only then rewrite. -/
def offerToReplaceOtherReferences (refs : List NoteRefs) (activeFile : Option Str)
    (excl : Nat × Nat) (basename newUrl : Str) (confirmed : Bool)
    (vault : Vault) : Vault × List Str :=
  let filtered := filterRefs refs activeFile excl
  if filtered = [] then (vault, [])
  else if confirmed then replaceAllReferences filtered basename newUrl vault
  else (vault, [])

/-- Profile A of the spec's worked example: macOS, user alice, vault
inside the Dropbox sub-folder. -/
def profA : ComputerProfile :=
  ⟨"A".data, "Mac (alice)".data, PlatformType.darwin, "alice".data,
    "Dropbox".data, [], false⟩

/-- Profile B of the spec's worked example: Windows, user alice, no
sub-path. -/
def profB : ComputerProfile :=
  ⟨"B".data, "Windows (alice)".data, PlatformType.win32, "alice".data,
    [], [], true⟩

/-- The worked example's environment: both profiles registered, B live
(the process runs on Windows and the vault sits under C:/Users/alice). -/
def envAB : EagleEnv :=
  ⟨true, [profA, profB], PlatformType.win32, "C:/Users/alice/vault".data⟩

/-- An environment with the cross-platform feature disabled, running on
macOS; the conversion inside `pathToFileUrl` is then the identity. -/
def envDarwin : EagleEnv :=
  ⟨false, [], PlatformType.darwin, "/Users/dev/vault".data⟩

/-- A registered profile whose username is a prefix of another's. -/
def profAl : ComputerProfile :=
  ⟨"S".data, "Mac (al)".data, PlatformType.darwin, "al".data, [], [], false⟩

/-- The longer-username companion of `profAl`. -/
def profAlice : ComputerProfile :=
  ⟨"L".data, "Mac (alice)".data, PlatformType.darwin, "alice".data, [], [], false⟩

/-- Environment with the substring-related usernames registered, shorter
first. -/
def envSubstr : EagleEnv :=
  ⟨true, [profAl, profAlice], PlatformType.darwin, "/Users/bob/vault".data⟩

/-- C1: the claim says that when remainder extraction fails (the source
root prefix, sub-path included, is absent although the classifier matched
the profile), the translator returns the original path unmodified.  The
code instead concatenates the live profile's root with the whole original
path: on /Users/alice/img/cat.png (no Dropbox segment) the classifier
matches profile A, extraction fails, and the result is the corrupt
C:/Users/alice//Users/alice/img/cat.png, not the original path. -/
theorem claimC1_remainder_failure_corrupts :
    findMatchingComputer envAB "/Users/alice/img/cat.png".data = some profA ∧
    convertPathForCurrentPlatform envAB "/Users/alice/img/cat.png".data =
      "C:/Users/alice//Users/alice/img/cat.png".data ∧
    convertPathForCurrentPlatform envAB "/Users/alice/img/cat.png".data ≠
      "/Users/alice/img/cat.png".data :=
  ⟨rfl, rfl, by decide⟩

/-- C2 counterexample: on %2525G the decode passes produce %25G and then
%G, whose decode throws; the last successful decode is %G, but
`fullyDecodeUri` returns the original input %2525G, not %G. -/
theorem claimC2_error_fallback_cex :
    decodeURIChars "%2525G".data = some "%25G".data ∧
    decodeURIChars "%25G".data = some "%G".data ∧
    decodeURIChars "%G".data = none ∧
    fullyDecodeUri "%2525G".data = "%2525G".data ∧
    fullyDecodeUri "%2525G".data ≠ "%G".data :=
  ⟨rfl, rfl, rfl, rfl, by decide⟩

theorem fullyDecodeGoFuel_fixed :
    ∀ (n : Nat) (s r : Str), fullyDecodeGoFuel n s = some r →
      containsStr ['%'] r = false ∨ decodeURIChars r = some r := by
  intro n
  induction n with
  | zero => intro s r h; simp [fullyDecodeGoFuel] at h
  | succ m ih =>
    intro s r h
    rw [fullyDecodeGoFuel] at h
    by_cases hin : containsStr ['%'] s
    · rw [if_pos hin] at h
      cases hd : decodeURIChars s with
      | none => rw [hd] at h; simp at h
      | some next =>
        rw [hd] at h
        dsimp only at h
        by_cases hfix : next = s
        · rw [if_pos hfix] at h
          simp at h
          subst h
          right
          rw [← hfix] at hd ⊢
          exact hd
        · rw [if_neg hfix] at h
          exact ih next r h
    · rw [if_neg hin] at h
      simp at h
      subst h
      left
      exact Bool.of_not_eq_true hin

/-- C2 amended: the loop percent-decodes to a fixed point, but when a
decode pass throws, `fullyDecodeUri` returns the original input string,
not the last successful decode pass. -/
theorem claimC2_error_fallback :
    (∀ s : Str, fullyDecodeGo s = none → fullyDecodeUri s = s) ∧
    (∀ s r : Str, fullyDecodeGo s = some r →
      fullyDecodeUri s = r ∧
        (containsStr ['%'] r = false ∨ decodeURIChars r = some r)) := by
  constructor
  · intro s h
    simp [fullyDecodeUri, h]
  · intro s r h
    refine ⟨by simp [fullyDecodeUri, h], ?_⟩
    exact fullyDecodeGoFuel_fixed (s.length + 1) s r h

/-- Witness for the amended C2 theorem: a throwing input comes back
unchanged, and a doubly-encoded input decodes to the fixed point. -/
theorem claimC2_error_fallback_witness :
    fullyDecodeUri "%G".data = "%G".data ∧
    fullyDecodeUri "%2541".data = "A".data := by
  constructor
  · exact claimC2_error_fallback.1 "%G".data (by rfl)
  · exact (claimC2_error_fallback.2 "%2541".data "A".data (by rfl)).1

/-- C5: with profiles A = (macos, alice, Dropbox) and B = (windows,
alice, empty sub-path) registered and B live, the path
/Users/alice/Dropbox/img/cat.png classifies to A and translates to
C:/Users/alice/img/cat.png. -/
theorem claimC5_worked_example :
    findMatchingComputer envAB "/Users/alice/Dropbox/img/cat.png".data = some profA ∧
    convertPathForCurrentPlatform envAB "/Users/alice/Dropbox/img/cat.png".data =
      "C:/Users/alice/img/cat.png".data :=
  ⟨rfl, rfl⟩

/-- C3: render mode is idempotent (a node carrying the converted marker
is skipped), but the content-mode scan is not: with both of the worked
example's profiles registered and the live username equal across
platforms, the second scan's guard still fires on the already-converted
URL (the Windows form still contains /Users/alice/) and the hit is
converted again, to a longer corrupt URL, instead of producing zero
additional conversions. -/
theorem claimC3_second_scan_converts_again :
    convertImageSrcForRendering envAB
        ⟨some "file:///C:/Users/alice/img/cat.png".data, true, none⟩ =
      ⟨some "file:///C:/Users/alice/img/cat.png".data, true, none⟩ ∧
    contentStep envAB "file:///Users/alice/Dropbox/img/cat.png".data =
      ("file:///C:/Users/alice/C%3A/Users/alice/img/cat.png".data, true) ∧
    (contentStep envAB "file:///C:/Users/alice/C%3A/Users/alice/img/cat.png".data).2 = true ∧
    (contentStep envAB "file:///C:/Users/alice/C%3A/Users/alice/img/cat.png".data).1 ≠
      "file:///C:/Users/alice/C%3A/Users/alice/img/cat.png".data :=
  ⟨rfl, rfl, rfl, by decide⟩

/-- C4 counterexample: encoding runs the cross-platform conversion first,
so in the worked example's state the percent-free macOS path
/Users/alice/Dropbox/img/cat.png does not round-trip: decoding the
encoded form yields the translated Windows path instead. -/
theorem claimC4_roundtrip_cex :
    containsStr ['%'] "/Users/alice/Dropbox/img/cat.png".data = false ∧
    extractFileUrlPath (pathToFileUrl envAB "/Users/alice/Dropbox/img/cat.png".data) =
      "C:/Users/alice/img/cat.png".data ∧
    extractFileUrlPath (pathToFileUrl envAB "/Users/alice/Dropbox/img/cat.png".data) ≠
      "/Users/alice/Dropbox/img/cat.png".data :=
  ⟨rfl, rfl, by decide⟩

/-- C8 counterexample: the drive-letter special case is guarded by the
current platform being Windows, so on macOS a Windows absolute path is
emitted with its colon left percent-encoded and the two-slash scheme
form. -/
theorem claimC8_drive_colon_cex :
    driveLetterTest "C:/Users/bob/img/cat.png".data = true ∧
    pathToFileUrl envDarwin "C:/Users/bob/img/cat.png".data =
      "file://C%3A/Users/bob/img/cat.png".data ∧
    containsStr "%3A".data (pathToFileUrl envDarwin "C:/Users/bob/img/cat.png".data) = true :=
  ⟨rfl, rfl, rfl⟩

/-- C9 counterexample: a path produced under the longer username alice
(it begins with /Users/alice/) whose tail embeds /Users/al/ classifies to
the shorter-username profile, because the macOS pattern is tested by
substring containment anywhere in the path. -/
theorem claimC9_substring_username_cex :
    profAl.username = "al".data ∧
    profAlice.username = "alice".data ∧
    startsWithStr (macRootPat profAlice.username)
      "/Users/alice/x/Users/al/y.png".data = true ∧
    findMatchingComputer envSubstr "/Users/alice/x/Users/al/y.png".data = some profAl :=
  ⟨rfl, rfl, rfl, rfl⟩

/-- The three-hits-in-two-documents scenario of the claim: the active
document holds one hit (at the excluded position) and the other document
holds two. -/
def refsC6 : List NoteRefs :=
  [⟨"active.md".data, [⟨3, 5, "![cat](file://old)".data⟩]⟩,
   ⟨"other.md".data, [⟨1, 2, "![c](u)".data⟩, ⟨4, 0, "![c](u)".data⟩]⟩]

/-- The document store for the scenario. -/
def vaultC6 : Vault :=
  [("active.md".data, "x\ny\nz\ndd ![cat](file://old)".data),
   ("other.md".data, "a\nbb![c](u)\nc\nd\n![c](u)e".data)]

/-- C6: a declined or timed-out confirmation performs zero document
writes in every state, and on confirmation the flow excludes exactly the
active document's hit at the excluded position: with three hits across
two documents it rewrites the remaining two hits in the one other
document, leaving the active document untouched. -/
theorem claimC6_confirmation_gate :
    (∀ (refs : List NoteRefs) (active : Option Str) (excl : Nat × Nat)
        (basename newUrl : Str) (vault : Vault),
      offerToReplaceOtherReferences refs active excl basename newUrl false vault =
        (vault, [])) ∧
    offerToReplaceOtherReferences refsC6 (some "active.md".data) (3, 5)
        "cat".data "eagle://item/X".data true vaultC6 =
      ([("active.md".data, "x\ny\nz\ndd ![cat](file://old)".data),
        ("other.md".data, "a\nbb![cat](eagle://item/X)\nc\nd\n![cat](eagle://item/X)e".data)],
       ["other.md".data]) := by
  constructor
  · intro refs active excl basename newUrl vault
    by_cases h : filterRefs refs active excl = [] <;>
      simp [offerToReplaceOtherReferences, h]
  · rfl

/-- The non-strict last-to-first order on hits: descending by line, then
by column. -/
def posDescGe (a b : RefPos) : Prop :=
  b.line < a.line ∨ (a.line = b.line ∧ b.ch ≤ a.ch)

theorem posKeyGt_iff (a b : RefPos) :
    posKeyGt a b = true ↔ b.line < a.line ∨ (a.line = b.line ∧ b.ch < a.ch) := by
  simp [posKeyGt]

theorem posDescGe_of_keyGt {a b : RefPos} (h : posKeyGt a b = true) : posDescGe a b := by
  rw [posKeyGt_iff] at h
  unfold posDescGe
  omega

theorem posDescGe_of_not_keyGt {a b : RefPos} (h : ¬ posKeyGt a b = true) :
    posDescGe b a := by
  rw [posKeyGt_iff] at h
  unfold posDescGe
  omega

theorem posDescGe_trans {a b c : RefPos} (h1 : posDescGe a b) (h2 : posDescGe b c) :
    posDescGe a c := by
  unfold posDescGe at h1 h2 ⊢
  omega

theorem insertPosDesc_perm (x : RefPos) :
    ∀ l : List RefPos, (insertPosDesc x l).Perm (x :: l) := by
  intro l
  induction l with
  | nil => simp [insertPosDesc]
  | cons y t ih =>
    rw [insertPosDesc]
    split
    · exact List.Perm.refl _
    · exact (ih.cons y).trans (List.Perm.swap x y t)

theorem insertPosDesc_mem {z x : RefPos} {l : List RefPos}
    (h : z ∈ insertPosDesc x l) : z = x ∨ z ∈ l := by
  have := (insertPosDesc_perm x l).mem_iff.mp h
  simpa using this

theorem insertPosDesc_pairwise {x : RefPos} {l : List RefPos}
    (h : List.Pairwise posDescGe l) :
    List.Pairwise posDescGe (insertPosDesc x l) := by
  induction l with
  | nil => simp [insertPosDesc]
  | cons y t ih =>
    rw [insertPosDesc]
    rcases List.pairwise_cons.mp h with ⟨hy, ht⟩
    split
    · rename_i hgt
      refine List.pairwise_cons.mpr ⟨?_, h⟩
      intro z hz
      rcases List.mem_cons.mp hz with rfl | hzt
      · exact posDescGe_of_keyGt hgt
      · exact posDescGe_trans (posDescGe_of_keyGt hgt) (hy z hzt)
    · rename_i hngt
      refine List.pairwise_cons.mpr ⟨?_, ih ht⟩
      intro z hz
      rcases insertPosDesc_mem hz with rfl | hzt
      · exact posDescGe_of_not_keyGt hngt
      · exact hy z hzt

theorem sortPositionsDesc_perm (ps : List RefPos) :
    (sortPositionsDesc ps).Perm ps := by
  have general :
      ∀ (l acc : List RefPos),
        (l.foldl (fun acc x => insertPosDesc x acc) acc).Perm (acc ++ l) := by
    intro l
    induction l with
    | nil => intro acc; simp
    | cons p t ih =>
      intro acc
      have h1 := ih (insertPosDesc p acc)
      have h2 : (insertPosDesc p acc ++ t).Perm ((p :: acc) ++ t) :=
        (insertPosDesc_perm p acc).append_right t
      have h3 : ((p :: acc) ++ t).Perm (acc ++ p :: t) := List.perm_middle.symm
      simpa using (h1.trans h2).trans h3
  simpa using general ps []

theorem sortPositionsDesc_pairwise (ps : List RefPos) :
    List.Pairwise posDescGe (sortPositionsDesc ps) := by
  have general :
      ∀ (l acc : List RefPos), List.Pairwise posDescGe acc →
        List.Pairwise posDescGe (l.foldl (fun acc x => insertPosDesc x acc) acc) := by
    intro l
    induction l with
    | nil => intro acc h; simpa using h
    | cons p t ih =>
      intro acc h
      exact ih (insertPosDesc p acc) (insertPosDesc_pairwise h)
  exact general ps [] (by simp)

theorem vaultRead_isSome (v : Vault) (q : Str) :
    (vaultRead v q).isSome = v.any fun e => decide (e.1 = q) := by
  induction v with
  | nil => rfl
  | cons e t ih =>
    simp only [vaultRead, List.find?_cons, List.any_cons]
    by_cases hq : e.1 = q
    · simp [hq]
    · have hd : decide (e.1 = q) = false := by simp [hq]
      simp only [hd, Bool.false_or]
      simpa [vaultRead] using ih

theorem vaultRead_isSome_write (v : Vault) (p c q : Str) :
    (vaultRead (vaultWrite v p c) q).isSome = (vaultRead v q).isSome := by
  rw [vaultRead_isSome, vaultRead_isSome, vaultWrite, List.any_map]
  apply congrArg
  funext e
  show decide ((if e.1 = p then (e.1, c) else e).1 = q) = decide (e.1 = q)
  split <;> rfl

theorem replaceAllReferences_writes :
    ∀ (refs : List NoteRefs) (basename newUrl : Str) (vault : Vault),
      (replaceAllReferences refs basename newUrl vault).2 =
        (refs.filter fun r => (vaultRead vault r.notePath).isSome).map
          (fun r => r.notePath) := by
  intro refs
  induction refs with
  | nil => intro basename newUrl vault; rfl
  | cons ref rest ih =>
    intro basename newUrl vault
    rw [replaceAllReferences]
    cases hread : vaultRead vault ref.notePath with
    | none =>
      rw [ih]
      rw [List.filter_cons]
      simp [hread]
    | some content =>
      dsimp only
      rw [ih]
      rw [List.filter_cons]
      simp only [hread, Option.isSome_some, List.map_cons, if_pos]
      congr 1
      apply congrArg
      apply List.filter_congr
      intro r _
      rw [vaultRead_isSome_write]

theorem splitOnChar_ne_nil (sep : Char) : ∀ s : Str, splitOnChar sep s ≠ [] := by
  intro s
  induction s with
  | nil => simp [splitOnChar]
  | cons c t ih =>
    rw [splitOnChar]
    cases h : splitOnChar sep t with
    | nil => simp
    | cons p ps =>
      dsimp only
      split <;> simp

theorem splitOnChar_not_mem (sep : Char) :
    ∀ (s : Str) (p : Str), p ∈ splitOnChar sep s → sep ∉ p := by
  intro s
  induction s with
  | nil => intro p hp; simp [splitOnChar] at hp; simp [hp]
  | cons c t ih =>
    intro p hp
    rw [splitOnChar] at hp
    cases h : splitOnChar sep t with
    | nil => exact absurd h (splitOnChar_ne_nil sep t)
    | cons q qs =>
      rw [h] at hp
      dsimp only at hp
      by_cases hc : c = sep
      · rw [if_pos hc] at hp
        rcases List.mem_cons.mp hp with rfl | hmem
        · simp
        · exact ih p (h ▸ hmem)
      · rw [if_neg hc] at hp
        rcases List.mem_cons.mp hp with rfl | hmem
        · intro hmm
          rcases List.mem_cons.mp hmm with h1 | h2
          · exact hc h1.symm
          · exact ih q (h ▸ List.mem_cons_self q qs) h2
        · exact ih p (h ▸ List.mem_cons_of_mem q hmem)

theorem splitOnChar_sepFree {sep : Char} :
    ∀ {x : Str}, sep ∉ x → splitOnChar sep x = [x] := by
  intro x
  induction x with
  | nil => intro _; rfl
  | cons c t ih =>
    intro h
    have hc : ¬ c = sep := fun hh => h (hh ▸ List.mem_cons_self c t)
    have ht : sep ∉ t := fun hh => h (List.mem_cons_of_mem c hh)
    rw [splitOnChar, ih ht]
    simp [hc]

theorem splitOnChar_append_sep {sep : Char} :
    ∀ {x : Str} (rest : Str), sep ∉ x →
      splitOnChar sep (x ++ sep :: rest) = x :: splitOnChar sep rest := by
  intro x
  induction x with
  | nil =>
    intro rest _
    rw [List.nil_append, splitOnChar]
    cases h : splitOnChar sep rest with
    | nil => exact absurd h (splitOnChar_ne_nil sep rest)
    | cons p ps => simp
  | cons c t ih =>
    intro rest h
    have hc : ¬ c = sep := fun hh => h (hh ▸ List.mem_cons_self c t)
    have ht : sep ∉ t := fun hh => h (List.mem_cons_of_mem c hh)
    rw [List.cons_append, splitOnChar, ih rest ht]
    simp [hc]

theorem splitOnChar_joinSep {sep : Char} :
    ∀ (L : List Str), L ≠ [] → (∀ p ∈ L, sep ∉ p) →
      splitOnChar sep (joinSep sep L) = L := by
  intro L
  induction L with
  | nil => intro h; exact absurd rfl h
  | cons x t ih =>
    intro _ hfree
    cases t with
    | nil =>
      rw [joinSep]
      exact splitOnChar_sepFree (hfree x (List.mem_cons_self x []))
    | cons y u =>
      rw [joinSep, splitOnChar_append_sep _ (hfree x (List.mem_cons_self x _))]
      rw [ih (by simp) (fun p hp => hfree p (List.mem_cons_of_mem x hp))]

theorem applyReplaceOne_preserves_earlier_lines
    (basename newUrl content : Str) (pos : RefPos) (i : Nat)
    (hb : '\n' ∉ basename) (hu : '\n' ∉ newUrl) (hi : i < pos.line) :
    (splitOnChar '\n' (applyReplaceOne basename newUrl content pos))[i]? =
      (splitOnChar '\n' content)[i]? := by
  unfold applyReplaceOne
  dsimp only
  cases hline : (splitOnChar '\n' content)[pos.line]? with
  | none => rfl
  | some line =>
    dsimp only
    by_cases hempty : line = []
    · rw [if_pos hempty]
    · rw [if_neg hempty]
      cases hidx : indexOfFrom pos.text line pos.ch with
      | none => rfl
      | some idx =>
        dsimp only
        have hlinemem : line ∈ splitOnChar '\n' content := List.getElem?_mem hline
        have hlinefree : '\n' ∉ line := splitOnChar_not_mem '\n' content line hlinemem
        have hfree : ∀ p ∈ (splitOnChar '\n' content).set pos.line
            (line.take idx ++ embedMarkdown basename newUrl ++
              line.drop (idx + pos.text.length)), '\n' ∉ p := by
          intro p hp
          rcases List.mem_or_eq_of_mem_set hp with hmem | rfl
          · exact splitOnChar_not_mem '\n' content p hmem
          · intro hmm
            rcases List.mem_append.mp hmm with hmm1 | hmm2
            · rcases List.mem_append.mp hmm1 with h1 | h2
              · exact hlinefree (List.mem_of_mem_take h1)
              · unfold embedMarkdown at h2
                rcases List.mem_append.mp h2 with h3 | h4
                · rcases List.mem_append.mp h3 with h5 | h6
                  · rcases List.mem_append.mp h5 with h7 | h8
                    · rcases List.mem_append.mp h7 with h9 | h10
                      · exact absurd h9 (by decide)
                      · exact hb h10
                    · exact absurd h8 (by decide)
                  · exact hu h6
                · exact absurd h4 (by decide)
            · exact hlinefree (List.mem_of_mem_drop hmm2)
        have hne : (splitOnChar '\n' content).set pos.line
            (line.take idx ++ embedMarkdown basename newUrl ++
              line.drop (idx + pos.text.length)) ≠ [] := by
          intro h0
          have hl := congrArg List.length h0
          simp only [List.length_set, List.length_nil] at hl
          exact (splitOnChar_ne_nil '\n' content) (List.eq_nil_of_length_eq_zero hl)
        rw [splitOnChar_joinSep _ hne hfree]
        exact List.getElem?_set_ne (by omega)

/-- C7: the rewriter orders each document's hits descending by line then
column (a stable sorted permutation of the recorded hits), persists every
found document exactly once (the write log lists each processed document
path once, in order), and a replacement applied at a hit leaves every
line before the hit's line unchanged, so it cannot shift the recorded
offset of a hit at a smaller line not yet processed. -/
theorem claimC7_last_to_first_single_persist :
    (∀ ps : List RefPos,
      List.Pairwise posDescGe (sortPositionsDesc ps) ∧
        (sortPositionsDesc ps).Perm ps) ∧
    (∀ (refs : List NoteRefs) (basename newUrl : Str) (vault : Vault),
      (replaceAllReferences refs basename newUrl vault).2 =
        (refs.filter fun r => (vaultRead vault r.notePath).isSome).map
          (fun r => r.notePath)) ∧
    (∀ (basename newUrl content : Str) (pos : RefPos) (i : Nat),
      '\n' ∉ basename → '\n' ∉ newUrl → i < pos.line →
      (splitOnChar '\n' (applyReplaceOne basename newUrl content pos))[i]? =
        (splitOnChar '\n' content)[i]?) :=
  ⟨fun ps => ⟨sortPositionsDesc_pairwise ps, sortPositionsDesc_perm ps⟩,
   replaceAllReferences_writes,
   fun basename newUrl content pos i hb hu hi =>
     applyReplaceOne_preserves_earlier_lines basename newUrl content pos i hb hu hi⟩

/-- Witness instantiating C7: the two-hit list sorts descending and the
replacement at line one leaves line zero unchanged. -/
theorem claimC7_last_to_first_single_persist_witness :
    (List.Pairwise posDescGe
        (sortPositionsDesc [⟨1, 2, "x".data⟩, ⟨4, 0, "y".data⟩]) ∧
      (sortPositionsDesc [⟨1, 2, "x".data⟩, ⟨4, 0, "y".data⟩]).Perm
        [⟨1, 2, "x".data⟩, ⟨4, 0, "y".data⟩]) ∧
    ('\n' ∉ "cat".data ∧ '\n' ∉ "u".data ∧ 0 < 1) ∧
    (splitOnChar '\n'
        (applyReplaceOne "cat".data "u".data "a\nbb".data ⟨1, 0, "bb".data⟩))[0]? =
      (splitOnChar '\n' "a\nbb".data)[0]? :=
  ⟨claimC7_last_to_first_single_persist.1 _,
   ⟨by decide, by decide, by decide⟩,
   claimC7_last_to_first_single_persist.2.2 "cat".data "u".data "a\nbb".data
     ⟨1, 0, "bb".data⟩ 0 (by decide) (by decide) (by decide)⟩

/-- C10: the multi-pass decode loop terminates on every input: a string
without a percent sign is already a fixed point, a decode error ends the
loop immediately, and a successful decode pass on a string containing a
percent sign strictly shortens it; consequently the fuel-indexed loop is
stable once the fuel exceeds the input length. -/
theorem claimC10_decode_loop_terminates :
    (∀ s : Str, containsStr ['%'] s = false → fullyDecodeGo s = some s) ∧
    (∀ s : Str, decodeURIChars s = none → fullyDecodeGo s = none ∨ fullyDecodeGo s = some s) ∧
    (∀ s next : Str, containsStr ['%'] s = true → decodeURIChars s = some next →
      next.length < s.length) ∧
    (∀ (n : Nat) (s : Str), s.length < n → fullyDecodeGoFuel n s = fullyDecodeGo s) := by
  refine ⟨?_, ?_, ?_, ?_⟩
  · intro s h
    rw [fullyDecodeGo_step, h]
    simp
  · intro s h
    rw [fullyDecodeGo_step]
    by_cases hin : containsStr ['%'] s
    · rw [if_pos hin, h]
      exact Or.inl rfl
    · rw [if_neg hin]
      exact Or.inr rfl
  · intro s next hin hd
    exact decodeURIChars_length_lt ((containsStr_singleton '%' s).mp hin) hd
  · intro n s h
    exact fullyDecodeGoFuel_mono n (s.length + 1) s h (Nat.lt_succ_self _)

/-- Witness instantiating C10: a percent-free string is a fixed point,
one pass strictly shortens a doubly-encoded input, and fuel nine already
computes the loop on a three-character input. -/
theorem claimC10_decode_loop_terminates_witness :
    fullyDecodeGo "abc".data = some "abc".data ∧
    ("AA".data.length < "%41A".data.length) ∧
    fullyDecodeGoFuel 9 "%41".data = fullyDecodeGo "%41".data :=
  ⟨claimC10_decode_loop_terminates.1 "abc".data (by rfl),
   claimC10_decode_loop_terminates.2.2.1 "%41A".data "AA".data (by rfl) (by rfl),
   claimC10_decode_loop_terminates.2.2.2 9 "%41".data (by decide)⟩

theorem hexVal_hexDigit {b : Nat} (h : b < 16) : hexVal (hexDigit b) = some b := by
  interval_cases b <;> rfl

theorem parseEscape_byteEscape (b : Nat) (r : Str) (hb : b < 256) :
    parseEscape (byteEscape b ++ r) = some (b, r) := by
  show parseEscape ('%' :: hexDigit (b / 16) :: hexDigit (b % 16) :: r) = some (b, r)
  simp only [parseEscape]
  rw [hexVal_hexDigit (by omega), hexVal_hexDigit (by omega)]
  dsimp only
  congr 1
  rw [Prod.mk.injEq]
  exact ⟨by omega, rfl⟩

theorem parseContEscapes_byteEscapes :
    ∀ (bs : List Nat) (r : Str), (∀ b ∈ bs, 0x80 ≤ b ∧ b < 0xC0) →
      parseContEscapes bs.length (bs.flatMap byteEscape ++ r) = some (bs, r) := by
  intro bs
  induction bs with
  | nil => intro r _; rfl
  | cons b t ih =>
    intro r hall
    have hb := hall b (List.mem_cons_self b t)
    rw [List.flatMap_cons, List.append_assoc]
    show parseContEscapes (t.length + 1) (byteEscape b ++ (t.flatMap byteEscape ++ r)) = _
    rw [parseContEscapes]
    rw [parseEscape_byteEscape b _ (by omega)]
    dsimp only
    rw [if_pos hb]
    rw [ih r (fun x hx => hall x (List.mem_cons_of_mem b hx))]

theorem char_toNat_valid (c : Char) :
    c.toNat < 0xD800 ∨ (0xDFFF < c.toNat ∧ c.toNat < 0x110000) := by
  have h := c.valid
  rcases h with h | h
  · exact Or.inl h
  · exact Or.inr h

theorem decode_escape_seq (b0 : Nat) (bs : List Nat) (v : Nat) (r : Str)
    (hb0 : b0 < 256)
    (hcont : ∀ b ∈ bs, 0x80 ≤ b ∧ b < 0xC0)
    (hlen : utf8SeqLen b0 = some bs.length)
    (hasm : utf8Assemble b0 bs = some v) :
    decodeURIChars ((byteEscape b0 ++ bs.flatMap byteEscape) ++ r) =
      Option.map (fun u => Char.ofNat v :: u) (decodeURIChars r) := by
  rw [List.append_assoc]
  show decodeURIChars
      ('%' :: (hexDigit (b0 / 16) :: hexDigit (b0 % 16) :: (bs.flatMap byteEscape ++ r))) = _
  rw [decodeURIChars_percent]
  rw [show ('%' :: (hexDigit (b0 / 16) :: hexDigit (b0 % 16) :: (bs.flatMap byteEscape ++ r))) =
      byteEscape b0 ++ (bs.flatMap byteEscape ++ r) from rfl]
  rw [parseEscape_byteEscape b0 _ hb0]
  dsimp only
  rw [hlen]
  dsimp only
  rw [parseContEscapes_byteEscapes bs r hcont]
  dsimp only
  rw [hasm]

theorem decode_utf8_encode (v : Nat) (r : Str)
    (hvalid : v < 0xD800 ∨ (0xDFFF < v ∧ v < 0x110000)) :
    decodeURIChars ((utf8EncodeNat v).flatMap byteEscape ++ r) =
      Option.map (fun u => Char.ofNat v :: u) (decodeURIChars r) := by
  by_cases h1 : v < 0x80
  · have henc : utf8EncodeNat v = [v] := by rw [utf8EncodeNat, if_pos h1]
    rw [henc,
      show ([v] : List Nat).flatMap byteEscape =
        byteEscape v ++ (([] : List Nat).flatMap byteEscape) by simp]
    refine decode_escape_seq v [] v r (by omega) (by simp) ?_ ?_
    · rw [utf8SeqLen, if_pos h1]
      rfl
    · rw [utf8Assemble]
      rw [if_pos h1]
  · by_cases h2 : v < 0x800
    · have henc : utf8EncodeNat v = [0xC0 + v / 64, 0x80 + v % 64] := by
        rw [utf8EncodeNat, if_neg h1, if_pos h2]
      rw [henc,
        show ([0xC0 + v / 64, 0x80 + v % 64] : List Nat).flatMap byteEscape =
          byteEscape (0xC0 + v / 64) ++ (([0x80 + v % 64] : List Nat).flatMap byteEscape) by
            simp]
      refine decode_escape_seq _ [0x80 + v % 64] v r (by omega) ?_ ?_ ?_
      · intro b hb
        simp at hb
        omega
      · show utf8SeqLen (0xC0 + v / 64) = some 1
        rw [utf8SeqLen, if_neg (by omega), if_neg (by omega), if_pos (by omega)]
      · show utf8Assemble (0xC0 + v / 64) [0x80 + v % 64] = some v
        rw [utf8Assemble]
        rw [if_pos (by omega)]
        congr 1
        omega
    · by_cases h3 : v < 0x10000
      · have henc : utf8EncodeNat v =
            [0xE0 + v / 4096, 0x80 + (v / 64) % 64, 0x80 + v % 64] := by
          rw [utf8EncodeNat, if_neg h1, if_neg h2, if_pos h3]
        rw [henc,
          show ([0xE0 + v / 4096, 0x80 + (v / 64) % 64, 0x80 + v % 64] : List Nat).flatMap
              byteEscape =
            byteEscape (0xE0 + v / 4096) ++
              (([0x80 + (v / 64) % 64, 0x80 + v % 64] : List Nat).flatMap byteEscape) by
                simp]
        refine decode_escape_seq _ [0x80 + (v / 64) % 64, 0x80 + v % 64] v r (by omega) ?_ ?_ ?_
        · intro b hb
          simp at hb
          rcases hb with rfl | rfl <;> omega
        · show utf8SeqLen (0xE0 + v / 4096) = some 2
          rw [utf8SeqLen, if_neg (by omega), if_neg (by omega), if_neg (by omega),
            if_pos (by omega)]
        · show utf8Assemble (0xE0 + v / 4096) [0x80 + (v / 64) % 64, 0x80 + v % 64] = some v
          rw [utf8Assemble]
          rw [if_pos (by omega)]
          congr 1
          omega
      · have h4 : v < 0x110000 := by omega
        have henc : utf8EncodeNat v =
            [0xF0 + v / 262144, 0x80 + (v / 4096) % 64, 0x80 + (v / 64) % 64, 0x80 + v % 64] := by
          rw [utf8EncodeNat, if_neg h1, if_neg h2, if_neg h3]
        rw [henc,
          show ([0xF0 + v / 262144, 0x80 + (v / 4096) % 64, 0x80 + (v / 64) % 64,
                0x80 + v % 64] : List Nat).flatMap byteEscape =
            byteEscape (0xF0 + v / 262144) ++
              (([0x80 + (v / 4096) % 64, 0x80 + (v / 64) % 64,
                 0x80 + v % 64] : List Nat).flatMap byteEscape) by simp]
        refine decode_escape_seq _
          [0x80 + (v / 4096) % 64, 0x80 + (v / 64) % 64, 0x80 + v % 64] v r (by omega) ?_ ?_ ?_
        · intro b hb
          simp at hb
          rcases hb with rfl | rfl | rfl <;> omega
        · show utf8SeqLen (0xF0 + v / 262144) = some 3
          rw [utf8SeqLen, if_neg (by omega), if_neg (by omega), if_neg (by omega),
            if_neg (by omega), if_pos (by omega)]
        · show utf8Assemble (0xF0 + v / 262144)
            [0x80 + (v / 4096) % 64, 0x80 + (v / 64) % 64, 0x80 + v % 64] = some v
          rw [utf8Assemble]
          rw [if_pos (by omega)]
          congr 1
          omega

theorem isUriUnreserved_ne_percent {c : Char} (h : isUriUnreserved c = true) :
    ¬ c = '%' := by
  intro he
  subst he
  exact absurd h (by decide)

theorem encodeURIComponentChars_cons (c : Char) (s : Str) :
    encodeURIComponentChars (c :: s) =
      (if isUriUnreserved c then [c] else (utf8EncodeNat c.toNat).flatMap byteEscape) ++
        encodeURIComponentChars s := by
  simp [encodeURIComponentChars]

theorem decode_encode_append (s r : Str) :
    decodeURIChars (encodeURIComponentChars s ++ r) =
      Option.map (fun u => s ++ u) (decodeURIChars r) := by
  induction s with
  | nil =>
    show decodeURIChars (encodeURIComponentChars [] ++ r) = _
    rw [show encodeURIComponentChars [] = [] from rfl, List.nil_append]
    cases decodeURIChars r <;> rfl
  | cons c s ih =>
    rw [encodeURIComponentChars_cons, List.append_assoc]
    by_cases hc : isUriUnreserved c
    · rw [if_pos hc]
      show decodeURIChars (c :: (encodeURIComponentChars s ++ r)) = _
      rw [decodeURIChars_cons_ne _ (isUriUnreserved_ne_percent hc), ih]
      cases decodeURIChars r <;> rfl
    · rw [if_neg hc]
      rw [decode_utf8_encode c.toNat _ (char_toNat_valid c), ih, Char.ofNat_toNat]
      cases decodeURIChars r <;> rfl

theorem decode_noPercent : ∀ {s : Str}, '%' ∉ s → decodeURIChars s = some s := by
  intro s
  induction s with
  | nil => intro _; rfl
  | cons c t ih =>
    intro h
    have hc : ¬ c = '%' := fun he => h (he ▸ List.mem_cons_self c t)
    have ht : '%' ∉ t := fun hm => h (List.mem_cons_of_mem c hm)
    rw [decodeURIChars_cons_ne t hc, ih ht]
    rfl

theorem containsStr_percent_false {s : Str} (h : '%' ∉ s) :
    containsStr ['%'] s = false := by
  cases hc : containsStr ['%'] s
  · rfl
  · exact absurd ((containsStr_singleton '%' s).mp hc) h

theorem fullyDecodeUri_noPercent {s : Str} (h : '%' ∉ s) : fullyDecodeUri s = s := by
  unfold fullyDecodeUri
  rw [show fullyDecodeGo s = some s by
    rw [fullyDecodeGo_step, containsStr_percent_false h]
    exact if_neg (by simp)]
  rfl

theorem fullyDecodeUri_of_decode {s p : Str} (hd : decodeURIChars s = some p)
    (hp : '%' ∉ p) : fullyDecodeUri s = p := by
  by_cases hin : containsStr ['%'] s = true
  · have hlt := decodeURIChars_length_lt ((containsStr_singleton '%' s).mp hin) hd
    have hne : ¬ p = s := by
      intro he
      rw [he] at hlt
      omega
    unfold fullyDecodeUri
    rw [fullyDecodeGo_step, if_pos hin, hd]
    dsimp only
    rw [if_neg hne]
    rw [show fullyDecodeGo p = some p by
      rw [fullyDecodeGo_step, containsStr_percent_false hp]
      exact if_neg (by simp)]
    rfl
  · have hs : '%' ∉ s := fun hm => hin ((containsStr_singleton '%' s).mpr hm)
    have hss := decode_noPercent hs
    rw [hd] at hss
    have hps : p = s := by injection hss
    rw [hps]
    exact fullyDecodeUri_noPercent hs

theorem joinSep_splitOnChar (sep : Char) : ∀ s : Str, joinSep sep (splitOnChar sep s) = s := by
  intro s
  induction s with
  | nil => rfl
  | cons c t ih =>
    rw [splitOnChar]
    cases h : splitOnChar sep t with
    | nil => exact absurd h (splitOnChar_ne_nil sep t)
    | cons p ps =>
      rw [h] at ih
      dsimp only
      by_cases hc : c = sep
      · rw [if_pos hc, joinSep]
        rw [List.nil_append, ih, hc]
      · rw [if_neg hc]
        cases ps with
        | nil =>
          rw [joinSep]
          rw [show joinSep sep [p] = p from rfl] at ih
          rw [ih]
        | cons q qs =>
          rw [joinSep]
          rw [show joinSep sep (p :: q :: qs) = p ++ sep :: joinSep sep (q :: qs) from rfl] at ih
          rw [List.cons_append, ih]

theorem decode_joinSep_encode :
    ∀ L : List Str, L ≠ [] →
      decodeURIChars (joinSep '/' (L.map encodeURIComponentChars)) =
        some (joinSep '/' L) := by
  intro L
  induction L with
  | nil => intro h; exact absurd rfl h
  | cons x t ih =>
    intro _
    cases t with
    | nil =>
      show decodeURIChars (encodeURIComponentChars x) = some x
      have h := decode_encode_append x []
      rw [show decodeURIChars ([] : Str) = some ([] : Str) from rfl] at h
      simpa using h
    | cons y u =>
      show decodeURIChars (encodeURIComponentChars x ++
          '/' :: joinSep '/' ((y :: u).map encodeURIComponentChars)) =
        some (x ++ '/' :: joinSep '/' (y :: u))
      rw [decode_encode_append]
      rw [decodeURIChars_cons_ne _ (by decide)]
      rw [ih (by simp)]
      rfl

theorem decode_encodeSegs (p : Str) : decodeURIChars (encodeSegs p) = some p := by
  unfold encodeSegs
  rw [decode_joinSep_encode _ (splitOnChar_ne_nil '/' p)]
  rw [joinSep_splitOnChar]

theorem encodeSegs_slash (q : Str) : encodeSegs ('/' :: q) = '/' :: encodeSegs q := by
  unfold encodeSegs
  rw [splitOnChar]
  cases h : splitOnChar '/' q with
  | nil => exact absurd h (splitOnChar_ne_nil '/' q)
  | cons p ps =>
    dsimp only
    rw [if_pos rfl]
    rfl

theorem encodeSegs_cons_ne {c : Char} (hc : ¬ c = '/') (q : Str) :
    encodeSegs (c :: q) =
      (if isUriUnreserved c then [c] else (utf8EncodeNat c.toNat).flatMap byteEscape) ++
        encodeSegs q := by
  unfold encodeSegs
  rw [splitOnChar]
  cases h : splitOnChar '/' q with
  | nil => exact absurd h (splitOnChar_ne_nil '/' q)
  | cons p ps =>
    dsimp only
    rw [if_neg hc]
    cases ps with
    | nil => rfl
    | cons y ys =>
      show (encodeURIComponentChars (c :: p)) ++
          '/' :: joinSep '/' ((y :: ys).map encodeURIComponentChars) = _
      rw [show encodeURIComponentChars (c :: p) =
          (if isUriUnreserved c then [c] else (utf8EncodeNat c.toNat).flatMap byteEscape) ++
            encodeURIComponentChars p from rfl]
      rw [List.append_assoc]
      rfl

theorem startsWithStr_append_both (a x y : Str) :
    startsWithStr (a ++ x) (a ++ y) = startsWithStr x y := by
  induction a with
  | nil => rfl
  | cons c t ih => simp [startsWithStr, ih]

theorem startsWithStr_self_append (a x : Str) : startsWithStr a (a ++ x) = true := by
  have h := startsWithStr_append_both a [] x
  simpa using h

theorem startsWithStr_exists_suffix :
    ∀ {pre s : Str}, startsWithStr pre s = true → ∃ q, s = pre ++ q := by
  intro pre
  induction pre with
  | nil => intro s _; exact ⟨s, rfl⟩
  | cons c t ih =>
    intro s h
    cases s with
    | nil => simp [startsWithStr] at h
    | cons a as =>
      simp only [startsWithStr, Bool.and_eq_true, decide_eq_true_eq] at h
      obtain ⟨rfl, h2⟩ := h
      obtain ⟨q, rfl⟩ := ih h2
      exact ⟨q, rfl⟩

theorem slashify_noBackslash {p : Str} (h : '\\' ∉ p) : slashify p = p := by
  induction p with
  | nil => rfl
  | cons c t ih =>
    have hc : ¬ c = '\\' := fun he => h (he ▸ List.mem_cons_self c t)
    have ht : '\\' ∉ t := fun hm => h (List.mem_cons_of_mem c hm)
    simp [slashify] at ih ⊢
    exact ⟨fun he => absurd he hc, ih ht⟩

theorem stripFileScheme_triple (x : Str) :
    stripFileScheme ("file:///".data ++ x) = x := by
  unfold stripFileScheme
  rw [if_pos (startsWithStr_self_append _ x)]
  rw [show (8 : Nat) = ("file:///".data).length from rfl, List.drop_left]

theorem stripFileScheme_double {x : Str} (h : startsWithStr ['/'] x = false) :
    stripFileScheme ("file://".data ++ x) = x := by
  unfold stripFileScheme
  rw [if_neg ?hneg]
  case hneg =>
    rw [show ("file:///".data : Str) = "file://".data ++ ['/'] from rfl,
      startsWithStr_append_both, h]
    simp
  rw [if_pos (startsWithStr_self_append _ x)]
  rw [show (7 : Nat) = ("file://".data).length from rfl, List.drop_left]

theorem usersSlashFix_users {p : Str} (h : startsWithStr "Users/".data p = true) :
    usersSlashFix p = '/' :: p := by
  obtain ⟨q, rfl⟩ := startsWithStr_exists_suffix h
  unfold usersSlashFix
  rw [if_pos ⟨h, by simp [startsWithStr]⟩]

theorem usersSlashFix_not {p : Str} (h : startsWithStr "Users/".data p = false) :
    usersSlashFix p = p := by
  unfold usersSlashFix
  rw [if_neg (fun hc => by rw [h] at hc; exact absurd hc.1 (by simp))]

theorem isAsciiLetter_unreserved {c : Char} (h : isAsciiLetter c = true) :
    isUriUnreserved c = true := by
  simp only [isAsciiLetter, Bool.or_eq_true, Bool.and_eq_true, decide_eq_true_eq] at h
  simp only [isUriUnreserved, Char.isAlphanum, Char.isAlpha, Char.isUpper, Char.isLower,
    Bool.or_eq_true, Bool.and_eq_true, decide_eq_true_eq, ge_iff_le, Char.le_def]
  simp only [Char.le_def] at h
  tauto

theorem isAsciiLetter_ne_slash {c : Char} (h : isAsciiLetter c = true) : ¬ c = '/' := by
  intro he
  subst he
  exact absurd h (by decide)

theorem isAsciiLetter_ne_percent {c : Char} (h : isAsciiLetter c = true) : ¬ c = '%' := by
  intro he
  subst he
  exact absurd h (by decide)

theorem driveLetterTest_shape {p : Str} (h : driveLetterTest p = true) :
    ∃ d t, p = d :: ':' :: t ∧ isAsciiLetter d = true := by
  match p, h with
  | d :: c2 :: t, h =>
    simp only [driveLetterTest, Bool.and_eq_true, decide_eq_true_eq] at h
    exact ⟨d, t, by rw [h.2], h.1⟩

theorem colonFix_escape {d : Char} (hd : isAsciiLetter d = true) (t : Str) :
    colonFix (d :: '%' :: '3' :: 'A' :: t) = d :: ':' :: t := by
  simp only [colonFix]
  rw [if_pos hd]

theorem encodeSegs_drive {d : Char} (hd : isAsciiLetter d = true) (t : Str) :
    encodeSegs (d :: ':' :: t) = d :: '%' :: '3' :: 'A' :: encodeSegs t := by
  rw [encodeSegs_cons_ne (isAsciiLetter_ne_slash hd),
    encodeSegs_cons_ne (show ¬ ':' = '/' by decide)]
  rw [if_pos (isAsciiLetter_unreserved hd), if_neg (show ¬ isUriUnreserved ':' = true by decide)]
  rfl

/-- An environment with the cross-platform feature disabled, running on
Windows. -/
def envWin : EagleEnv :=
  ⟨false, [], PlatformType.win32, "C:/Users/bob/vault".data⟩

/-- C4 amended: encoding first runs the cross-platform conversion, so the
round trip holds for every percent-free, backslash-free macOS-style
(/Users/...) or Windows-style (drive-letter) path in every state where
that conversion leaves the path unchanged (for example, cross-platform
disabled or no profile matching); decoding the encoded identifier then
yields the path back exactly. -/
theorem claimC4_roundtrip_amended (env : EagleEnv) (p : Str)
    (hper : '%' ∉ p) (hbs : '\\' ∉ p)
    (hshape : startsWithStr "/Users/".data p = true ∨ driveLetterTest p = true)
    (hconv : convertPathForCurrentPlatform env p = p) :
    extractFileUrlPath (pathToFileUrl env p) = p := by
  have hdec : fullyDecodeUri p = p := fullyDecodeUri_noPercent hper
  have hslash : slashify p = p := slashify_noBackslash hbs
  unfold pathToFileUrl
  simp only [hdec, hconv, hslash]
  rcases hshape with hmac | hdrv
  · obtain ⟨rest, rfl⟩ := startsWithStr_exists_suffix hmac
    have hdriveF : driveLetterTest ("/Users/".data ++ rest) = false := rfl
    rw [if_neg (fun hc => by rw [hdriveF] at hc; exact absurd hc.2 (by simp))]
    have hq : ("/Users/".data ++ rest : Str) = '/' :: ("Users/".data ++ rest) := rfl
    rw [hq, encodeSegs_slash]
    rw [show ("file://".data : Str) ++ '/' :: encodeSegs ("Users/".data ++ rest) =
        "file:///".data ++ encodeSegs ("Users/".data ++ rest) from rfl]
    unfold extractFileUrlPath
    rw [stripFileScheme_triple]
    have hqper : '%' ∉ ("Users/".data ++ rest : Str) := by
      intro hm
      exact hper (by rw [hq]; exact List.mem_cons_of_mem _ hm)
    rw [fullyDecodeUri_of_decode (decode_encodeSegs _) hqper]
    rw [usersSlashFix_users (startsWithStr_self_append "Users/".data rest)]
  · obtain ⟨d, t, rfl, hd⟩ := driveLetterTest_shape hdrv
    have hfixp : usersSlashFix (d :: ':' :: t) = d :: ':' :: t := by
      apply usersSlashFix_not
      simp [startsWithStr]
    by_cases hw : env.currentPlatform = PlatformType.win32
    · rw [if_pos ⟨hw, hdrv⟩]
      rw [encodeSegs_drive hd, colonFix_escape hd]
      unfold extractFileUrlPath
      rw [stripFileScheme_triple]
      have hdecode : decodeURIChars (d :: ':' :: encodeSegs t) = some (d :: ':' :: t) := by
        rw [decodeURIChars_cons_ne _ (isAsciiLetter_ne_percent hd)]
        rw [decodeURIChars_cons_ne _ (show ¬ ':' = '%' by decide)]
        rw [decode_encodeSegs]
        rfl
      rw [fullyDecodeUri_of_decode hdecode hper]
      exact hfixp
    · rw [if_neg (fun hc => hw hc.1)]
      unfold extractFileUrlPath
      rw [stripFileScheme_double ?hsw]
      case hsw =>
        rw [encodeSegs_drive hd]
        simp only [startsWithStr, Bool.and_eq_true, decide_eq_true_eq]
        simp only [Bool.and_eq_false_iff]
        left
        simp only [decide_eq_false_iff_not]
        exact fun he => (isAsciiLetter_ne_slash hd) he.symm
      rw [fullyDecodeUri_of_decode (decode_encodeSegs _) hper]
      exact hfixp

/-- Witness instantiating the amended C4 round trip on a macOS path with
a space (so the encoding is non-trivial) and on a Windows drive path. -/
theorem claimC4_roundtrip_amended_witness :
    extractFileUrlPath (pathToFileUrl envDarwin "/Users/alice/img/cat name.png".data) =
      "/Users/alice/img/cat name.png".data ∧
    extractFileUrlPath (pathToFileUrl envWin "C:/Users/bob/img/x y.png".data) =
      "C:/Users/bob/img/x y.png".data :=
  ⟨claimC4_roundtrip_amended envDarwin "/Users/alice/img/cat name.png".data
     (by decide) (by decide) (Or.inl (by decide)) (by rfl),
   claimC4_roundtrip_amended envWin "C:/Users/bob/img/x y.png".data
     (by decide) (by decide) (Or.inr (by decide)) (by rfl)⟩

/-- C8 amended: the drive-letter special case is conditioned on the
current platform: when the platform is Windows and the normalized
converted path is drive-letter absolute, the output uses the triple-slash
scheme form with the drive colon restored (never left as an escape);
otherwise the output is the two-slash scheme form followed by the
per-segment encoding (the third slash of a macOS absolute URL is the
path's own leading slash, not part of the scheme). -/
theorem claimC8_scheme_forms_amended (env : EagleEnv) (p : Str) :
    ((env.currentPlatform = PlatformType.win32 ∧
        driveLetterTest (slashify (convertPathForCurrentPlatform env (fullyDecodeUri p))) = true) →
      ∃ d t, slashify (convertPathForCurrentPlatform env (fullyDecodeUri p)) = d :: ':' :: t ∧
        isAsciiLetter d = true ∧
        pathToFileUrl env p = "file:///".data ++ d :: ':' :: encodeSegs t) ∧
    (¬ (env.currentPlatform = PlatformType.win32 ∧
        driveLetterTest (slashify (convertPathForCurrentPlatform env (fullyDecodeUri p))) = true) →
      pathToFileUrl env p =
        "file://".data ++
          encodeSegs (slashify (convertPathForCurrentPlatform env (fullyDecodeUri p)))) := by
  constructor
  · intro h
    obtain ⟨d, t, hshape, hd⟩ := driveLetterTest_shape h.2
    refine ⟨d, t, hshape, hd, ?_⟩
    simp only [pathToFileUrl]
    rw [hshape]
    rw [if_pos ⟨h.1, by rw [← hshape]; exact h.2⟩]
    rw [encodeSegs_drive hd, colonFix_escape hd]
  · intro h
    simp only [pathToFileUrl]
    rw [if_neg h]

/-- Witness instantiating the amended C8 scheme-form theorem on a
Windows drive path on the Windows platform and on a macOS path on
macOS. -/
theorem claimC8_scheme_forms_amended_witness :
    (∃ d t, slashify (convertPathForCurrentPlatform envWin
        (fullyDecodeUri "C:/Users/bob/img/cat.png".data)) = d :: ':' :: t ∧
      isAsciiLetter d = true ∧
      pathToFileUrl envWin "C:/Users/bob/img/cat.png".data =
        "file:///".data ++ d :: ':' :: encodeSegs t) ∧
    pathToFileUrl envDarwin "/Users/alice/img/cat.png".data =
      "file://".data ++
        encodeSegs (slashify (convertPathForCurrentPlatform envDarwin
          (fullyDecodeUri "/Users/alice/img/cat.png".data))) :=
  ⟨(claimC8_scheme_forms_amended envWin "C:/Users/bob/img/cat.png".data).1
     ⟨rfl, by decide⟩,
   (claimC8_scheme_forms_amended envDarwin "/Users/alice/img/cat.png".data).2
     (fun hc => by exact absurd hc.1 (by decide))⟩

theorem matchLitCi_self_append : ∀ (u x : Str), matchLitCi u (u ++ x) = some x := by
  intro u
  induction u with
  | nil => intro x; rfl
  | cons c t ih =>
    intro x
    show matchLitCi (c :: t) (c :: (t ++ x)) = some x
    rw [matchLitCi]
    rw [if_pos rfl]
    exact ih x

/-- C9 amended: for usernames in a strict prefix relation, the shorter
profile's patterns never match the longer-username path at its root: the
macOS literal pattern (which demands the separator right after the
username) is not a prefix of the path, and the anchored Windows pattern of
the classifier rejects it for any drive letter, so a registry holding only
the shorter Windows profile classifies the path to none.  (Because the
macOS test is substring containment anywhere in the path, a path whose
tail embeds the shorter root can still classify to the shorter profile,
as the counterexample shows; only root-anchored matching is safe.) -/
theorem claimC9_separator_required_amended (uS uL rest : Str) (c : Char) (t2 : Str)
    (hlong : uL = uS ++ c :: t2) (hc : isSepChar c = false) :
    startsWithStr (macRootPat uS) ("/Users/".data ++ (uL ++ '/' :: rest)) = false ∧
    (∀ d : Char,
      matchWinRootAt uS [] (d :: ':' :: '/' :: ("Users/".data ++ (uL ++ '/' :: rest))) = none) ∧
    (∀ env : EagleEnv, env.enableCrossPlatform = true →
      env.computers = [⟨"W".data, "w".data, PlatformType.win32, uS, [], [], false⟩] →
      ∀ d : Char,
        findMatchingComputer env
          (d :: ':' :: '/' :: ("Users/".data ++ (uL ++ '/' :: rest))) = none) := by
  have hcslash : ¬ c = '/' := by
    intro he
    rw [he] at hc
    exact absurd hc (by decide)
  have hwin : ∀ d : Char,
      matchWinRootAt uS [] (d :: ':' :: '/' :: ("Users/".data ++ (uL ++ '/' :: rest))) = none := by
    intro d
    rw [matchWinRootAt]
    by_cases ha : isAsciiLetter d = true
    · rw [if_pos ⟨ha, rfl⟩]
      rw [show matchSepCharM ('/' :: ("Users/".data ++ (uL ++ '/' :: rest))) =
          some ("Users/".data ++ (uL ++ '/' :: rest)) from rfl]
      dsimp only
      rw [show ("Users/".data ++ (uL ++ '/' :: rest) : Str) =
          "Users".data ++ ('/' :: (uL ++ '/' :: rest)) from rfl]
      rw [matchLitCi_self_append]
      dsimp only
      rw [show matchSepCharM ('/' :: (uL ++ '/' :: rest)) = some (uL ++ '/' :: rest) from rfl]
      dsimp only
      rw [hlong, show ((uS ++ c :: t2) ++ '/' :: rest : Str) =
          uS ++ (c :: (t2 ++ '/' :: rest)) by rw [List.append_assoc]; rfl]
      rw [matchLitCi_self_append]
      dsimp only
      rw [if_pos rfl]
      dsimp only
      rw [show matchSepCharM (c :: (t2 ++ '/' :: rest)) = none by
        rw [matchSepCharM, if_neg (by rw [hc]; simp)]]
    · rw [if_neg (fun hcon => ha hcon.1)]
  refine ⟨?_, hwin, ?_⟩
  · rw [show macRootPat uS = "/Users/".data ++ (uS ++ ['/']) by
      rw [macRootPat, List.append_assoc]]
    rw [startsWithStr_append_both]
    rw [hlong, show ((uS ++ c :: t2) ++ '/' :: rest : Str) =
        uS ++ (c :: (t2 ++ '/' :: rest)) by rw [List.append_assoc]; rfl]
    rw [show (uS ++ ['/'] : Str) = uS ++ ['/'] from rfl]
    rw [startsWithStr_append_both]
    simp only [startsWithStr, Bool.and_eq_true, decide_eq_true_eq]
    simp only [Bool.and_eq_false_iff]
    left
    simp only [decide_eq_false_iff_not]
    exact fun he => hcslash he.symm
  · intro env h1 h2 d
    unfold findMatchingComputer
    rw [if_neg (by rw [h1, h2]; simp)]
    rw [h2]
    rw [List.find?_cons]
    rw [show (matchWinRootAt uS []
        (d :: ':' :: '/' :: ("Users/".data ++ (uL ++ '/' :: rest)))).isSome = false by
      rw [hwin d]; rfl]
    rfl

/-- Witness instantiating the amended C9 theorem at usernames al and
alice. -/
theorem claimC9_separator_required_amended_witness :
    startsWithStr (macRootPat "al".data)
      ("/Users/".data ++ ("alice".data ++ '/' :: "y.png".data)) = false ∧
    matchWinRootAt "al".data []
      ('C' :: ':' :: '/' :: ("Users/".data ++ ("alice".data ++ '/' :: "y.png".data))) = none ∧
    findMatchingComputer
      ⟨true, [⟨"W".data, "w".data, PlatformType.win32, "al".data, [], [], false⟩],
        PlatformType.darwin, []⟩
      ('C' :: ':' :: '/' :: ("Users/".data ++ ("alice".data ++ '/' :: "y.png".data))) = none := by
  have h := claimC9_separator_required_amended "al".data "alice".data "y.png".data
    'i' "ce".data (by decide) (by decide)
  exact ⟨h.1, h.2.1 'C', h.2.2 _ rfl rfl 'C'⟩
